import Mathlib

/-!
Verification of the data-preparation pipeline for the Warsaw rental-price
study.  The development shallowly embeds the tabular transforms of the two
notebooks (`data_preparation_notebook.ipynb`, `data_generation_using_LLM.ipynb`):
Python strings become `List Char`, numeric cells become `ℚ` with `Option`
marking pandas `NaN`, dataframes become lists of rows, and the regular
expressions used by the notebooks are embedded as executable scanners with
Python `re` semantics.
-/

namespace MA

/-- Python strings are modelled as lists of characters. -/
abbrev Str := List Char

/-! ### Basic Python string operations -/

/-- Python lexicographic string comparison `s <= t`
(used by `pandas.Series.le` on string columns). -/
def lexLe : Str → Str → Bool
  | [], _ => true
  | _ :: _, [] => false
  | a :: s, b :: t => if a = b then lexLe s t else decide (a < b)

/-- Substring containment: does `needle` occur contiguously inside `hay`?
(Python `needle in hay`, pandas `str.contains` with a literal pattern.) -/
def containsSub (needle hay : Str) : Bool :=
  hay.tails.any (fun t => needle.isPrefixOf t)

/-- Python `text.split(sep)`: splitting on every occurrence of the separator,
keeping empty parts; `''.split(sep) = ['']`. -/
def splitSep (sep : Char) : Str → List Str
  | [] => [[]]
  | c :: rest =>
    if c = sep then [] :: splitSep sep rest
    else
      match splitSep sep rest with
      | [] => [[c]]
      | t :: ts => (c :: t) :: ts

/-- Python `sep.join(parts)` for a one-character separator. -/
def joinSep (sep : Char) : List Str → Str
  | [] => []
  | [l] => l
  | l :: ls => l ++ sep :: joinSep sep ls

/-! ### The regex `(\d{3,})` and `extract_and_sum`
(`data_generation_using_LLM.ipynb`, LLM-output post-processing cell) -/

/-- `re.findall(r'(\d{3,})', text)`: scan left to right; at each position try
the greedy match `\d{3,}` (the maximal block of consecutive digits starting
there, succeeding when it has length at least 3); on success emit it and
resume after it, otherwise advance one character. -/
def findallDigits3 : Str → List Str
  | [] => []
  | c :: rest =>
    if 3 ≤ ((c :: rest).takeWhile Char.isDigit).length then
      ((c :: rest).takeWhile Char.isDigit) ::
        findallDigits3 ((c :: rest).drop ((c :: rest).takeWhile Char.isDigit).length)
    else
      findallDigits3 rest
termination_by s => s.length
decreasing_by
  · rw [List.length_drop]
    exact Nat.sub_lt (by simp) (by omega)
  · simp

/-- Python `int` applied to a non-empty string of ASCII digits. -/
def valueOfDigits (s : Str) : ℕ :=
  s.foldl (fun a c => 10 * a + (c.toNat - 48)) 0

/-- `extract_and_sum(text, r'(\d{3,})')` from the LLM notebook: sum the
integer values of all regex matches, starting from `total = 0`.  Python's
`int` is unbounded, so the running total lives in `ℤ`. -/
def extract_and_sum (text : Str) : ℤ :=
  (findallDigits3 text).foldl (fun total m => total + (valueOfDigits m : ℤ)) 0

/-- The maximal runs of consecutive digits of a string, in order: each run is
a non-empty block of digits that cannot be extended on either side. -/
def digitRuns : Str → List Str
  | [] => []
  | c :: rest =>
    if c.isDigit then
      ((c :: rest).takeWhile Char.isDigit) :: digitRuns ((c :: rest).dropWhile Char.isDigit)
    else
      digitRuns rest
termination_by s => s.length
decreasing_by
  · simp only [List.dropWhile]
    rename_i hc
    simp [hc]
    calc (List.dropWhile Char.isDigit rest).length ≤ rest.length := by
          exact List.Sublist.length_le (List.dropWhile_sublist _)
      _ < rest.length + 1 := by omega
  · simp

/-- `r` is a maximal run of consecutive digits of `s`: non-empty, all digits,
and occurring with a non-digit (or the string boundary) on each side. -/
def IsMaximalDigitRun (s r : Str) : Prop :=
  r ≠ [] ∧ (∀ c ∈ r, c.isDigit = true) ∧
  ∃ pre suf, s = pre ++ r ++ suf ∧
    (∀ p, pre.getLast? = some p → p.isDigit = false) ∧
    (∀ q, suf.head? = some q → q.isDigit = false)

lemma drop_length_takeWhile (p : Char → Bool) (s : Str) :
    s.drop (s.takeWhile p).length = s.dropWhile p := by
  induction s with
  | nil => rfl
  | cons c rest ih =>
    by_cases hc : p c
    · simpa [List.takeWhile_cons, List.dropWhile_cons, hc] using ih
    · simp [List.takeWhile_cons, List.dropWhile_cons, hc]

lemma head?_dropWhile (p : Char → Bool) (s : Str) :
    ∀ q, (s.dropWhile p).head? = some q → p q = false := by
  induction s with
  | nil => intro q h; simp at h
  | cons c rest ih =>
    intro q h
    by_cases hc : p c
    · exact ih q (by simpa [List.dropWhile_cons, hc] using h)
    · rw [List.dropWhile_cons_of_neg hc] at h
      simp at h
      subst h
      simpa using hc

lemma findallDigits3_short : ∀ (s : Str),
    ((s.takeWhile Char.isDigit).length < 3) →
    findallDigits3 s = findallDigits3 (s.dropWhile Char.isDigit) := by
  intro s
  induction s with
  | nil => intro _; rfl
  | cons c rest ih =>
    intro h
    by_cases hc : c.isDigit
    · rw [findallDigits3]
      rw [if_neg (by omega)]
      rw [List.dropWhile_cons_of_pos hc]
      apply ih
      rw [List.takeWhile_cons_of_pos hc] at h
      simp at h
      omega
    · simp [List.dropWhile_cons, hc]

lemma findallDigits3_eq_runs_aux : ∀ (n : ℕ) (s : Str), s.length ≤ n →
    findallDigits3 s = (digitRuns s).filter (fun r => decide (3 ≤ r.length)) := by
  intro n
  induction n with
  | zero =>
    intro s hs
    have : s = [] := List.length_eq_zero.mp (Nat.le_zero.mp hs)
    subst this
    simp [findallDigits3, digitRuns]
  | succ n ih =>
    intro s hs
    cases s with
    | nil => simp [findallDigits3, digitRuns]
    | cons c rest =>
      by_cases hc : c.isDigit
      · have hdw : ((c :: rest).dropWhile Char.isDigit).length ≤ n := by
          rw [List.dropWhile_cons_of_pos hc]
          have hsub : (List.dropWhile Char.isDigit rest).Sublist rest :=
            List.dropWhile_sublist _
          have := hsub.length_le
          simp at hs
          omega
        by_cases h3 : 3 ≤ ((c :: rest).takeWhile Char.isDigit).length
        · rw [findallDigits3, if_pos h3, digitRuns, if_pos hc]
          rw [drop_length_takeWhile]
          rw [List.filter_cons_of_pos (by simpa using h3)]
          rw [ih _ hdw]
        · rw [findallDigits3_short _ (by omega), digitRuns, if_pos hc]
          rw [List.filter_cons_of_neg (by simpa using h3)]
          rw [ih _ hdw]
      · rw [findallDigits3, if_neg (by simp [List.takeWhile_cons_of_neg hc]), digitRuns,
          if_neg hc]
        apply ih
        simp at hs
        omega

lemma takeWhile_append_of_boundary (p : Char → Bool) (r suf : Str)
    (hr : ∀ c ∈ r, p c = true) (hsuf : ∀ q, suf.head? = some q → p q = false) :
    (r ++ suf).takeWhile p = r ∧ (r ++ suf).dropWhile p = suf := by
  induction r with
  | nil =>
    cases suf with
    | nil => simp
    | cons q t =>
      have hq := hsuf q rfl
      simp [List.takeWhile_cons, List.dropWhile_cons, hq]
  | cons c r ih =>
    have hc := hr c (by simp)
    have hih := ih (fun x hx => hr x (by simp [hx]))
    simp only [List.cons_append, List.takeWhile_cons, List.dropWhile_cons, hc]
    simp [hih.1, hih.2]

lemma digitRuns_sound_aux : ∀ (n : ℕ) (s : Str), s.length ≤ n →
    ∀ r ∈ digitRuns s, IsMaximalDigitRun s r := by
  intro n
  induction n with
  | zero =>
    intro s hs
    have : s = [] := List.length_eq_zero.mp (Nat.le_zero.mp hs)
    subst this
    simp [digitRuns]
  | succ n ih =>
    intro s hs r hr
    cases s with
    | nil => simp [digitRuns] at hr
    | cons c rest =>
      by_cases hc : c.isDigit
      · rw [digitRuns, if_pos hc] at hr
        have hdw : ((c :: rest).dropWhile Char.isDigit).length ≤ n := by
          rw [List.dropWhile_cons_of_pos hc]
          have hsub : (List.dropWhile Char.isDigit rest).Sublist rest :=
            List.dropWhile_sublist _
          have := hsub.length_le
          simp at hs
          omega
        rcases List.mem_cons.mp hr with hr | hr
        · subst hr
          refine ⟨by simp [List.takeWhile_cons_of_pos hc], ?_, [],
            (c :: rest).dropWhile Char.isDigit,
            by simp [List.takeWhile_append_dropWhile], by simp, ?_⟩
          · intro x hx
            exact List.mem_takeWhile_imp hx
          · intro q hq
            exact head?_dropWhile Char.isDigit (c :: rest) q hq
        · obtain ⟨hne, hdig, pre, suf, hsplit, hpre, hsuf⟩ := ih _ hdw r hr
          refine ⟨hne, hdig, (c :: rest).takeWhile Char.isDigit ++ pre, suf, ?_, ?_, hsuf⟩
          · conv_lhs => rw [← List.takeWhile_append_dropWhile (p := Char.isDigit) (c :: rest)]
            rw [hsplit]
            simp
          · intro p hp
            cases hpre' : pre.getLast? with
            | some x =>
              rw [List.getLast?_append, hpre'] at hp
              simp at hp
              subst hp
              exact hpre _ hpre'
            | none =>
              have : pre = [] := by
                cases pre with
                | nil => rfl
                | cons a l => rw [List.getLast?_eq_getLast _ (by simp)] at hpre'; cases hpre'
              subst this
              cases r with
              | nil => exact absurd rfl hne
              | cons r0 rtail =>
                have h0 : ((c :: rest).dropWhile Char.isDigit).head? = some r0 := by
                  rw [hsplit]; simp
                have := head?_dropWhile Char.isDigit (c :: rest) r0 h0
                have := hdig r0 (by simp)
                simp_all
      · rw [digitRuns, if_neg hc] at hr
        have hlen : rest.length ≤ n := by simp at hs; omega
        obtain ⟨hne, hdig, pre, suf, hsplit, hpre, hsuf⟩ := ih _ hlen r hr
        refine ⟨hne, hdig, c :: pre, suf, by simp [hsplit], ?_, hsuf⟩
        intro p hp
        cases pre with
        | nil =>
          simp at hp
          subst hp
          simpa using hc
        | cons a l =>
          rw [List.getLast?_cons_cons] at hp
          exact hpre _ hp

lemma mem_of_getLast?_eq (l : Str) (x : Char) (h : l.getLast? = some x) : x ∈ l := by
  have hne : l ≠ [] := by
    intro hl
    subst hl
    simp at h
  rw [List.getLast?_eq_getLast l hne] at h
  simp at h
  subst h
  exact List.getLast_mem hne

lemma dropWhile_ne_nil_of_getLast (p : Char → Bool) (pre : Str) (x : Char)
    (hx : pre.getLast? = some x) (hpx : p x = false) :
    pre.dropWhile p ≠ [] := by
  intro hnil
  have hall : pre.takeWhile p = pre := by
    have h := List.takeWhile_append_dropWhile (p := p) (l := pre)
    rw [hnil, List.append_nil] at h
    exact h
  have hmem : x ∈ pre := mem_of_getLast?_eq pre x hx
  have : p x = true := List.mem_takeWhile_imp (hall ▸ hmem)
  simp [hpx] at this

lemma digitRuns_mem_of_nil_pre (r suf : Str) (hne : r ≠ [])
    (hdig : ∀ c ∈ r, c.isDigit = true)
    (hsb : ∀ q, suf.head? = some q → q.isDigit = false) :
    r ∈ digitRuns (r ++ suf) := by
  cases r with
  | nil => exact absurd rfl hne
  | cons r0 rt =>
    have h0 : r0.isDigit = true := hdig r0 (by simp)
    have htw := takeWhile_append_of_boundary Char.isDigit (r0 :: rt) suf hdig hsb
    simp only [List.cons_append] at htw ⊢
    rw [digitRuns, if_pos h0]
    rw [htw.1]
    simp

lemma digitRuns_complete_aux : ∀ (n : ℕ) (pre : Str), pre.length ≤ n →
    ∀ (r suf : Str), r ≠ [] → (∀ c ∈ r, c.isDigit = true) →
    (∀ p, pre.getLast? = some p → p.isDigit = false) →
    (∀ q, suf.head? = some q → q.isDigit = false) →
    r ∈ digitRuns (pre ++ r ++ suf) := by
  intro n
  induction n with
  | zero =>
    intro pre hpre r suf hne hdig hb hsb
    have : pre = [] := List.length_eq_zero.mp (Nat.le_zero.mp hpre)
    subst this
    simpa using digitRuns_mem_of_nil_pre r suf hne hdig hsb
  | succ n ih =>
    intro pre hpre r suf hne hdig hb hsb
    cases hpc : pre with
    | nil =>
      subst hpc
      simpa using digitRuns_mem_of_nil_pre r suf hne hdig hsb
    | cons p0 pt =>
      subst hpc
      by_cases hp0 : p0.isDigit
      · have hx : (p0 :: pt).getLast? = some ((p0 :: pt).getLast (by simp)) :=
          List.getLast?_eq_getLast _ (by simp)
        set x := (p0 :: pt).getLast (by simp) with hxdef
        have hxd : x.isDigit = false := hb x hx
        have hdwne : (p0 :: pt).dropWhile Char.isDigit ≠ [] :=
          dropWhile_ne_nil_of_getLast Char.isDigit (p0 :: pt) x hx hxd
        have htwlt : ((p0 :: pt).takeWhile Char.isDigit).length ≠ (p0 :: pt).length := by
          intro hlen
          have htw : (p0 :: pt).takeWhile Char.isDigit = p0 :: pt :=
            (List.takeWhile_sublist _).eq_of_length hlen
          have hsum := congrArg List.length
            (List.takeWhile_append_dropWhile (p := Char.isDigit) (l := p0 :: pt))
          rw [List.length_append, htw] at hsum
          have : ((p0 :: pt).dropWhile Char.isDigit).length = 0 := by omega
          exact hdwne (List.length_eq_zero.mp this)
        have hshape : (p0 :: pt) ++ r ++ suf = p0 :: (pt ++ (r ++ suf)) := by simp
        have htw_app : (p0 :: (pt ++ (r ++ suf))).takeWhile Char.isDigit
            = (p0 :: pt).takeWhile Char.isDigit := by
          rw [← List.cons_append, List.takeWhile_append, if_neg htwlt]
        have hdw_app : (p0 :: (pt ++ (r ++ suf))).dropWhile Char.isDigit
            = (p0 :: pt).dropWhile Char.isDigit ++ (r ++ suf) := by
          rw [← List.cons_append, List.dropWhile_append, if_neg (by simpa using hdwne)]
        have hdec : p0 :: pt = (p0 :: pt).takeWhile Char.isDigit
            ++ (p0 :: pt).dropWhile Char.isDigit :=
          (List.takeWhile_append_dropWhile (p := Char.isDigit) (l := p0 :: pt)).symm
        have hglast : ((p0 :: pt).dropWhile Char.isDigit).getLast? = some x := by
          have h := hx
          rw [hdec, List.getLast?_append,
            List.getLast?_eq_getLast _ hdwne] at h
          simp at h
          rw [List.getLast?_eq_getLast _ hdwne, h]
        have hlen : ((p0 :: pt).dropWhile Char.isDigit).length ≤ n := by
          rw [List.dropWhile_cons_of_pos hp0]
          have hsub : (List.dropWhile Char.isDigit pt).Sublist pt :=
            List.dropWhile_sublist _
          have := hsub.length_le
          simp at hpre
          omega
        have hmem := ih ((p0 :: pt).dropWhile Char.isDigit) hlen r suf hne hdig
          (by intro p hp
              rw [hglast] at hp
              simp at hp
              subst hp
              exact hxd)
          hsb
        rw [hshape, digitRuns, if_pos hp0, htw_app, hdw_app]
        rw [List.append_assoc] at hmem
        exact List.mem_cons_of_mem _ hmem
      · have hlen : pt.length ≤ n := by simp at hpre; omega
        have hmem := ih pt hlen r suf hne hdig
          (by intro p hp
              apply hb
              cases pt with
              | nil => simp at hp
              | cons a l => rw [List.getLast?_cons_cons]; exact hp)
          hsb
        have hshape : (p0 :: pt) ++ r ++ suf = p0 :: (pt ++ r ++ suf) := by simp
        rw [hshape, digitRuns, if_neg hp0]
        exact hmem

lemma foldl_add_value (l : List Str) (a : ℤ) :
    l.foldl (fun total m => total + (valueOfDigits m : ℤ)) a
      = a + (l.map (fun m => (valueOfDigits m : ℤ))).sum := by
  induction l generalizing a with
  | nil => simp
  | cons x xs ih => simp [ih, add_assoc]

/-- C1: for every string `text`, `extract_and_sum(text, r'(\d{3,})')` returns
the sum of the integer values of all maximal runs of three or more consecutive
digits in `text` (and `0` when no such run exists), hence the value is always
a nonnegative integer.  The theorem also records that `digitRuns` lists
exactly the maximal digit runs of `text`. -/
theorem extract_and_sum_maximal_runs (text : Str) :
    extract_and_sum text
      = (((digitRuns text).filter (fun r => decide (3 ≤ r.length))).map
          (fun r => (valueOfDigits r : ℤ))).sum
    ∧ 0 ≤ extract_and_sum text
    ∧ ((∀ r, IsMaximalDigitRun text r → r.length < 3) → extract_and_sum text = 0)
    ∧ (∀ r ∈ digitRuns text, IsMaximalDigitRun text r)
    ∧ (∀ r, IsMaximalDigitRun text r → r ∈ digitRuns text) := by
  have heq : findallDigits3 text
      = (digitRuns text).filter (fun r => decide (3 ≤ r.length)) :=
    findallDigits3_eq_runs_aux text.length text le_rfl
  have hsum : extract_and_sum text
      = (((digitRuns text).filter (fun r => decide (3 ≤ r.length))).map
          (fun r => (valueOfDigits r : ℤ))).sum := by
    rw [extract_and_sum, heq, foldl_add_value]
    simp
  refine ⟨hsum, ?_, ?_, ?_, ?_⟩
  · rw [hsum]
    apply List.sum_nonneg
    intro x hx
    obtain ⟨m, _, hm⟩ := List.mem_map.mp hx
    rw [← hm]
    exact Int.natCast_nonneg _
  · intro h
    rw [hsum]
    have hnil : (digitRuns text).filter (fun r => decide (3 ≤ r.length)) = [] := by
      rw [List.filter_eq_nil_iff]
      intro r hr
      have hmax := digitRuns_sound_aux text.length text le_rfl r hr
      have := h r hmax
      simp
      omega
    rw [hnil]
    simp
  · exact digitRuns_sound_aux text.length text le_rfl
  · rintro r ⟨hne, hdig, pre, suf, hsplit, hpre, hsuf⟩
    rw [hsplit]
    exact digitRuns_complete_aux pre.length pre le_rfl r suf hne hdig hpre hsuf

/-- Concrete check of C1 on a sample input. -/
theorem extract_and_sum_maximal_runs_witness :
    0 ≤ extract_and_sum ("ab1234".toList)
    ∧ extract_and_sum ("ab1234".toList) = 1234 := by
  have h1 : digitRuns ("ab1234".toList) = [['1', '2', '3', '4']] := by
    rw [show ("ab1234".toList) = 'a' :: 'b' :: ['1', '2', '3', '4'] from rfl]
    rw [digitRuns, if_neg (by decide)]
    rw [digitRuns, if_neg (by decide)]
    rw [digitRuns, if_pos (by decide)]
    rw [show List.takeWhile Char.isDigit ['1', '2', '3', '4'] = ['1', '2', '3', '4'] from rfl,
      show List.dropWhile Char.isDigit ['1', '2', '3', '4'] = [] from rfl, digitRuns]
  refine ⟨(extract_and_sum_maximal_runs _).2.1, ?_⟩
  rw [(extract_and_sum_maximal_runs _).1, h1]
  decide

/-! ### The regex `\d{1,3}(?:[.,]\d{3})+|\d{3,}` and `filter_lines`
(`data_generation_using_LLM.ipynb`, description-filtering cell) -/

/-- Does a match of the branch `\d{3,}` start at the head of `t`?
(For search purposes three leading digits suffice.) -/
def digits3At : Str → Bool
  | a :: b :: c :: _ => a.isDigit && b.isDigit && c.isDigit
  | _ => false

/-- Does a match of one group `[.,]\d{3}` start at the head of `t`? -/
def sepGroupAt : Str → Bool
  | a :: b :: c :: d :: _ =>
    (a = '.' || a = ',') && b.isDigit && c.isDigit && d.isDigit
  | _ => false

/-- Does a match of `\d{1,3}(?:[.,]\d{3})+` with exactly `k` leading digits
start at the head of `t`?  The `+` is witnessed by its first group. -/
def branch1AtK (k : ℕ) (t : Str) : Bool :=
  decide (k ≤ t.length) && (t.take k).all Char.isDigit && sepGroupAt (t.drop k)

/-- Does a match of the branch `\d{1,3}(?:[.,]\d{3})+` start at the head of
`t`?  With backtracking, a match exists iff it exists for one, two or three
leading digits. -/
def branch1At (t : Str) : Bool :=
  branch1AtK 1 t || branch1AtK 2 t || branch1AtK 3 t

/-- Does a match of `\d{1,3}(?:[.,]\d{3})+|\d{3,}` start at the head of `t`? -/
def hasNumberAt (t : Str) : Bool := branch1At t || digits3At t

/-- `re.search(r'(\d{1,3}(?:[.,]\d{3})+|\d{3,})', line)` viewed as a Boolean:
some position of `line` starts a match. -/
def searchNumber (line : Str) : Bool := line.tails.any hasNumberAt

/-- `filter_lines` from the LLM notebook: split the text on newlines, keep
exactly the lines where the regex search succeeds, join them back. -/
def filter_lines (text : Str) : Str :=
  joinSep '\n' ((splitSep '\n' text).filter searchNumber)

/-- A complete match of the pattern `\d{1,3}(?:[.,]\d{3})+|\d{3,}`:
either one to three digits followed by at least one thousands group
`[.,]\d{3}`, or three or more digits. -/
def TokMatch (tok : Str) : Prop :=
  (∃ ds groups, tok = ds ++ groups.flatten ∧ ds ≠ [] ∧ ds.length ≤ 3 ∧
    (∀ c ∈ ds, c.isDigit = true) ∧ groups ≠ [] ∧
    (∀ g ∈ groups, ∃ s d1 d2 d3, g = [s, d1, d2, d3] ∧ (s = '.' ∨ s = ',') ∧
      d1.isDigit = true ∧ d2.isDigit = true ∧ d3.isDigit = true))
  ∨ (3 ≤ tok.length ∧ ∀ c ∈ tok, c.isDigit = true)

/-- `line` contains a substring matched by the number pattern. -/
def ContainsNumMatch (line : Str) : Prop :=
  ∃ pre tok suf, line = pre ++ tok ++ suf ∧ TokMatch tok

lemma sepGroupAt_iff (u : Str) : sepGroupAt u = true ↔
    ∃ s d1 d2 d3 rest, u = s :: d1 :: d2 :: d3 :: rest ∧ (s = '.' ∨ s = ',') ∧
      d1.isDigit = true ∧ d2.isDigit = true ∧ d3.isDigit = true := by
  match u with
  | [] => simp [sepGroupAt]
  | [a] => simp [sepGroupAt]
  | [a, b] => simp [sepGroupAt]
  | [a, b, c] => simp [sepGroupAt]
  | a :: b :: c :: d :: rest =>
    simp only [sepGroupAt, Bool.and_eq_true, Bool.or_eq_true, decide_eq_true_eq]
    constructor
    · rintro ⟨⟨⟨hs, h1⟩, h2⟩, h3⟩
      exact ⟨a, b, c, d, rest, rfl, hs, h1, h2, h3⟩
    · rintro ⟨s, d1, d2, d3, rest2, heq, hs, h1, h2, h3⟩
      cases heq
      exact ⟨⟨⟨hs, h1⟩, h2⟩, h3⟩

lemma digits3At_iff (u : Str) : digits3At u = true ↔
    ∃ a b c rest, u = a :: b :: c :: rest ∧
      a.isDigit = true ∧ b.isDigit = true ∧ c.isDigit = true := by
  match u with
  | [] => simp [digits3At]
  | [a] => simp [digits3At]
  | [a, b] => simp [digits3At]
  | a :: b :: c :: rest =>
    simp only [digits3At, Bool.and_eq_true]
    constructor
    · rintro ⟨⟨h1, h2⟩, h3⟩
      exact ⟨a, b, c, rest, rfl, h1, h2, h3⟩
    · rintro ⟨x, y, z, r2, heq, h1, h2, h3⟩
      cases heq
      exact ⟨⟨h1, h2⟩, h3⟩

lemma branch1AtK_tokMatch (k : ℕ) (t : Str) (hk1 : 1 ≤ k) (hk3 : k ≤ 3)
    (h : branch1AtK k t = true) :
    ∃ tok suf, t = tok ++ suf ∧ TokMatch tok := by
  rw [branch1AtK, Bool.and_eq_true, Bool.and_eq_true] at h
  obtain ⟨⟨hlen, hall⟩, hsep⟩ := h
  rw [decide_eq_true_eq] at hlen
  obtain ⟨s, d1, d2, d3, rest, hrest, hs, h1, h2, h3⟩ := (sepGroupAt_iff _).mp hsep
  refine ⟨t.take k ++ [s, d1, d2, d3], rest, ?_, ?_⟩
  · conv_lhs => rw [← List.take_append_drop k t]
    rw [hrest]
    simp
  · left
    refine ⟨t.take k, [[s, d1, d2, d3]], by simp, ?_, ?_, ?_, by simp, ?_⟩
    · have : (t.take k).length = k := by
        rw [List.length_take]
        omega
      intro hnil
      rw [hnil] at this
      simp at this
      omega
    · rw [List.length_take]
      omega
    · intro c hc
      exact List.all_eq_true.mp hall c hc
    · intro g hg
      simp at hg
      subst hg
      exact ⟨s, d1, d2, d3, rfl, hs, h1, h2, h3⟩

lemma hasNumberAt_tokMatch (t : Str) (h : hasNumberAt t = true) :
    ∃ tok suf, t = tok ++ suf ∧ TokMatch tok := by
  rw [hasNumberAt, Bool.or_eq_true] at h
  rcases h with hb | hd
  · rw [branch1At, Bool.or_eq_true, Bool.or_eq_true] at hb
    rcases hb with (h1 | h2) | h3
    · exact branch1AtK_tokMatch 1 t (by omega) (by omega) h1
    · exact branch1AtK_tokMatch 2 t (by omega) (by omega) h2
    · exact branch1AtK_tokMatch 3 t (by omega) (by omega) h3
  · obtain ⟨a, b, c, rest, heq, h1, h2, h3⟩ := (digits3At_iff _).mp hd
    refine ⟨[a, b, c], rest, by simp [heq], Or.inr ⟨by simp, ?_⟩⟩
    intro x hx
    simp at hx
    rcases hx with hx | hx | hx <;> subst hx <;> assumption

lemma tokMatch_hasNumberAt (tok suf : Str) (h : TokMatch tok) :
    hasNumberAt (tok ++ suf) = true := by
  rcases h with ⟨ds, groups, htok, hne, hlen, hdig, hgne, hg⟩ | ⟨hlen, hdig⟩
  · cases groups with
    | nil => exact absurd rfl hgne
    | cons g gs =>
      obtain ⟨s, d1, d2, d3, hgeq, hs, h1, h2, h3⟩ := hg g (by simp)
      subst hgeq
      have hktok : tok ++ suf = ds ++ ([s, d1, d2, d3] ++ (gs.flatten ++ suf)) := by
        rw [htok]
        simp
      have hsep : sepGroupAt ([s, d1, d2, d3] ++ (gs.flatten ++ suf)) = true := by
        rw [sepGroupAt_iff]
        exact ⟨s, d1, d2, d3, gs.flatten ++ suf, by simp, hs, h1, h2, h3⟩
      have hbk : branch1AtK ds.length (tok ++ suf) = true := by
        rw [branch1AtK, hktok, Bool.and_eq_true, Bool.and_eq_true]
        refine ⟨⟨?_, ?_⟩, ?_⟩
        · rw [decide_eq_true_eq]
          simp
        · rw [List.take_left]
          rw [List.all_eq_true]
          exact hdig
        · rw [List.drop_left]
          exact hsep
      have hdsl : ds.length = 1 ∨ ds.length = 2 ∨ ds.length = 3 := by
        have : ds.length ≠ 0 := by
          intro h0
          exact hne (List.length_eq_zero.mp h0)
        omega
      rw [hasNumberAt, branch1At]
      rcases hdsl with h | h | h <;> rw [h] at hbk <;> simp [hbk]
  · cases tok with
    | nil => simp at hlen
    | cons a t1 =>
      cases t1 with
      | nil => simp at hlen
      | cons b t2 =>
        cases t2 with
        | nil => simp at hlen
        | cons c t3 =>
          have hd3 : digits3At (a :: b :: c :: (t3 ++ suf)) = true := by
            rw [digits3At_iff]
            exact ⟨a, b, c, t3 ++ suf, rfl, hdig a (by simp), hdig b (by simp),
              hdig c (by simp)⟩
          rw [hasNumberAt, Bool.or_eq_true]
          right
          simpa using hd3

lemma searchNumber_iff (line : Str) :
    searchNumber line = true ↔ ContainsNumMatch line := by
  constructor
  · intro h
    rw [searchNumber, List.any_eq_true] at h
    obtain ⟨t, ht, hat⟩ := h
    rw [List.mem_tails] at ht
    obtain ⟨pre, hpre⟩ := ht
    obtain ⟨tok, suf, hts, htom⟩ := hasNumberAt_tokMatch t hat
    exact ⟨pre, tok, suf, by rw [← hpre, hts, List.append_assoc], htom⟩
  · rintro ⟨pre, tok, suf, hline, htok⟩
    rw [searchNumber, List.any_eq_true]
    refine ⟨tok ++ suf, ?_, tokMatch_hasNumberAt tok suf htok⟩
    rw [List.mem_tails]
    exact ⟨pre, by rw [hline, List.append_assoc]⟩

lemma splitSep_ne_nil (sep : Char) (s : Str) : splitSep sep s ≠ [] := by
  induction s with
  | nil => simp [splitSep]
  | cons c rest ih =>
    rw [splitSep]
    by_cases hc : c = sep
    · simp [hc]
    · rw [if_neg hc]
      cases hs : splitSep sep rest with
      | nil => exact absurd hs ih
      | cons t ts => simp

lemma splitSep_not_mem (sep : Char) (s : Str) :
    ∀ l ∈ splitSep sep s, sep ∉ l := by
  induction s with
  | nil =>
    intro l hl
    simp [splitSep] at hl
    simp [hl]
  | cons c rest ih =>
    intro l hl
    rw [splitSep] at hl
    by_cases hc : c = sep
    · rw [if_pos hc] at hl
      rcases List.mem_cons.mp hl with h | h
      · simp [h]
      · exact ih l h
    · rw [if_neg hc] at hl
      cases hs : splitSep sep rest with
      | nil => exact absurd hs (splitSep_ne_nil sep rest)
      | cons t ts =>
        rw [hs] at hl
        rcases List.mem_cons.mp hl with h | h
        · subst h
          intro hmem
          rcases List.mem_cons.mp hmem with h | h
          · exact hc h.symm
          · exact ih t (by rw [hs]; simp) h
        · exact ih l (by rw [hs]; simp [h])

lemma splitSep_eq_single (sep : Char) (l : Str) (h : sep ∉ l) :
    splitSep sep l = [l] := by
  induction l with
  | nil => rfl
  | cons c rest ih =>
    have hc : c ≠ sep := by
      intro hc
      exact h (by simp [hc])
    rw [splitSep, if_neg (fun hh => hc hh)]
    rw [ih (fun hm => h (by simp [hm]))]

lemma splitSep_append_cons (sep : Char) (x t : Str) (hx : sep ∉ x) :
    splitSep sep (x ++ sep :: t) = x :: splitSep sep t := by
  induction x with
  | nil => simp [splitSep]
  | cons c rest ih =>
    have hc : c ≠ sep := by
      intro hc
      exact hx (by simp [hc])
    rw [List.cons_append, splitSep, if_neg (fun hh => hc hh)]
    rw [ih (fun hm => hx (by simp [hm]))]

lemma splitSep_joinSep (sep : Char) : ∀ (ls : List Str), ls ≠ [] →
    (∀ l ∈ ls, sep ∉ l) → splitSep sep (joinSep sep ls) = ls := by
  intro ls
  induction ls with
  | nil => intro h; exact absurd rfl h
  | cons x rest ih =>
    intro _ hmem
    cases rest with
    | nil =>
      rw [joinSep]
      exact splitSep_eq_single sep x (hmem x (by simp))
    | cons y rest2 =>
      rw [joinSep]
      rw [splitSep_append_cons sep x (joinSep sep (y :: rest2)) (hmem x (by simp))]
      rw [ih (List.cons_ne_nil y rest2) (fun l hl => hmem l (by simp [hl]))]
      exact List.cons_ne_nil y rest2

lemma searchNumber_nil : searchNumber [] = false := by
  rfl

/-- C8: `filter_lines(text)` is the newline-join of exactly those lines of
`text` (split on newline) that contain a substring matching
`\d{1,3}(?:[.,]\d{3})+|\d{3,}`, kept in their original order; consequently
`filter_lines` is idempotent. -/
theorem filter_lines_spec (text : Str) :
    filter_lines text = joinSep '\n' ((splitSep '\n' text).filter searchNumber)
    ∧ (∀ line, searchNumber line = true ↔ ContainsNumMatch line)
    ∧ filter_lines (filter_lines text) = filter_lines text := by
  refine ⟨rfl, searchNumber_iff, ?_⟩
  cases hL : (splitSep '\n' text).filter searchNumber with
  | nil =>
    have h1 : filter_lines text = [] := by
      rw [filter_lines, hL]
      rfl
    rw [h1]
    rw [filter_lines]
    rw [show splitSep '\n' ([] : Str) = [[]] from rfl]
    rw [show List.filter searchNumber [[]] = [] from rfl]
    rfl
  | cons x rest =>
    have hnomem : ∀ l ∈ (splitSep '\n' text).filter searchNumber, '\n' ∉ l := by
      intro l hl
      exact splitSep_not_mem '\n' text l (List.mem_filter.mp hl).1
    have hround : splitSep '\n' (filter_lines text)
        = (splitSep '\n' text).filter searchNumber := by
      rw [filter_lines]
      exact splitSep_joinSep '\n' _ (by rw [hL]; simp) hnomem
    have hpass : ∀ l ∈ (splitSep '\n' text).filter searchNumber,
        searchNumber l = true := by
      intro l hl
      exact (List.mem_filter.mp hl).2
    conv_lhs => rw [filter_lines, hround]
    rw [List.filter_eq_self.mpr hpass]
    rfl

/-- Concrete check of C8 on a sample description. -/
theorem filter_lines_spec_witness :
    filter_lines ("czynsz 500\nbalkon\nmedia: 2.300".toList)
      = "czynsz 500\nmedia: 2.300".toList
    ∧ filter_lines (filter_lines ("czynsz 500\nbalkon\nmedia: 2.300".toList))
      = filter_lines ("czynsz 500\nbalkon\nmedia: 2.300".toList) := by
  refine ⟨by decide, (filter_lines_spec _).2.2⟩

/-! ### LLM gating (`data_generation_using_LLM.ipynb`) -/

/-- A listing row as used by the LLM notebook, with the columns the gating
filters inspect; `additional_fees` is `none` for pandas `NaN`. -/
structure LlmRow where
  link : Str
  rent : Option ℚ
  additional_fees : Option ℚ
  adv_description : Str
  added_dt : Str
deriving DecidableEq

/-- pandas `Series.lt(100)` on a numeric column: comparisons with `NaN` are
`False`. -/
def feesLt100 (fees : Option ℚ) : Bool :=
  match fees with
  | some f => decide (f < 100)
  | none => false

/-- The cutoff date string of the filter cell. -/
def cutoffDate : Str := "2025-02-04".toList

/-- The date-and-fees filter
`df[df.added_dt.le('2025-02-04') & df.additional_fees.lt(100)]`. -/
def llmCandidates (df : List LlmRow) : List LlmRow :=
  df.filter (fun r => lexLe r.added_dt cutoffDate && feesLt100 r.additional_fees)

/-- The rows `query_llm` is applied to: after the date-and-fees filter, the
rows whose `filtered_description` is non-empty
(`df[df.filtered_description.ne('')]`). -/
def llmQueried (df : List LlmRow) : List LlmRow :=
  (llmCandidates df).filter (fun r => !(filter_lines r.adv_description == []))

/-- C7: the language model is queried only on rows with
`added_dt <= '2025-02-04'`, listed `additional_fees` strictly below 100
(in particular not missing), and a non-empty `filtered_description`. -/
theorem llmQueried_gating (df : List LlmRow) (r : LlmRow)
    (h : r ∈ llmQueried df) :
    lexLe r.added_dt cutoffDate = true
    ∧ (∃ f, r.additional_fees = some f ∧ f < 100)
    ∧ filter_lines r.adv_description ≠ [] := by
  rw [llmQueried, List.mem_filter] at h
  obtain ⟨hc, hne⟩ := h
  rw [llmCandidates, List.mem_filter] at hc
  obtain ⟨_, hflt⟩ := hc
  rw [Bool.and_eq_true] at hflt
  refine ⟨hflt.1, ?_, ?_⟩
  · have h2 := hflt.2
    cases hf : r.additional_fees with
    | none =>
      rw [hf] at h2
      simp [feesLt100] at h2
    | some f =>
      rw [hf] at h2
      rw [show feesLt100 (some f) = decide (f < 100) from rfl, decide_eq_true_eq] at h2
      exact ⟨f, rfl, h2⟩
  · simpa using hne

/-- A sample listing row that passes all three LLM gating filters. -/
def llmRow0 : LlmRow :=
  { link := "https://example".toList
    rent := some 3000
    additional_fees := some 50
    adv_description := "czynsz administracyjny 450".toList
    added_dt := "2025-01-15".toList }

/-- Concrete check of C7. -/
theorem llmQueried_gating_witness :
    lexLe llmRow0.added_dt cutoffDate = true
    ∧ (∃ f, llmRow0.additional_fees = some f ∧ f < 100)
    ∧ filter_lines llmRow0.adv_description ≠ [] :=
  llmQueried_gating [llmRow0] llmRow0 (by decide)

/-! ### Historical (legacy) data preparation
(`data_preparation_notebook.ipynb`, radius-averaging input) -/

/-- A legacy listing row; numeric cells are `none` for pandas `NaN`, and the
`approximate_coordinates` flag is `none` when missing. -/
structure LegacyRow where
  approximate_coordinates : Option Bool
  rent_price : Option ℚ
  additional_fees : Option ℚ
  area : Option ℚ
  price_per_square : Option ℚ
  latitude : ℚ
  longitude : ℚ
deriving DecidableEq

/-- pandas division of two possibly-missing cells: `NaN` propagates.  (pandas
maps division of a number by zero to an infinity; no claim depends on that
case, and `ℚ` division by zero is total.) -/
def cellDiv : Option ℚ → Option ℚ → Option ℚ
  | some p, some a => some (p / a)
  | _, _ => none

/-- `legacy_data[~legacy_data.approximate_coordinates.eq(True)]`: keep the
rows whose flag is not `True` (that is, `False` or missing). -/
def dropApproximate (rows : List LegacyRow) : List LegacyRow :=
  rows.filter (fun r => !(r.approximate_coordinates == some true))

/-- The fee-folding row transform: add `additional_fees` to `rent_price` when
the fees are not `NaN` (`pd.isna`), otherwise keep `rent_price` (a `NaN`
rent propagates through the addition, as in pandas). -/
def addFeesToRent (r : LegacyRow) : LegacyRow :=
  { r with rent_price :=
      match r.additional_fees with
      | some f => r.rent_price.map (fun p => p + f)
      | none => r.rent_price }

/-- `legacy_data['price_per_square'] = legacy_data.rent_price/legacy_data.area`. -/
def addPricePerSquare (r : LegacyRow) : LegacyRow :=
  { r with price_per_square := cellDiv r.rent_price r.area }

/-- The legacy table exactly as passed to `average_price_within_radius`:
approximate coordinates dropped, fees folded into the rent, price per square
added. -/
def legacyForAveraging (rows : List LegacyRow) : List LegacyRow :=
  ((dropApproximate rows).map addFeesToRent).map addPricePerSquare

/-- C3: every row fed to the radius averaging has final `rent_price` equal to
the original `rent_price` plus `additional_fees` when the fees are present and
the original `rent_price` when they are missing, and `price_per_square` equal
to that final `rent_price` divided by `area`. -/
theorem legacy_price_per_square (rows : List LegacyRow) (q : LegacyRow)
    (h : q ∈ legacyForAveraging rows) :
    ∃ r ∈ rows, q = addPricePerSquare (addFeesToRent r)
      ∧ (∀ f, r.additional_fees = some f →
          q.rent_price = r.rent_price.map (fun p => p + f))
      ∧ (r.additional_fees = none → q.rent_price = r.rent_price)
      ∧ q.price_per_square = cellDiv q.rent_price q.area := by
  rw [legacyForAveraging] at h
  obtain ⟨r1, h1, he1⟩ := List.mem_map.mp h
  obtain ⟨r, hr, he2⟩ := List.mem_map.mp h1
  have hmem : r ∈ rows := (List.mem_filter.mp hr).1
  subst he2
  subst he1
  refine ⟨r, hmem, rfl, ?_, ?_, ?_⟩
  · intro f hf
    simp [addPricePerSquare, addFeesToRent, hf]
  · intro hf
    simp [addPricePerSquare, addFeesToRent, hf]
  · simp [addPricePerSquare, addFeesToRent, cellDiv]

/-- A legacy row with listed fees and exact coordinates. -/
def legacyRow0 : LegacyRow :=
  { approximate_coordinates := some false
    rent_price := some 2000
    additional_fees := some 500
    area := some 50
    price_per_square := none
    latitude := 52
    longitude := 21 }

/-- Concrete check of C3: fees are folded in and the ratio is formed. -/
theorem legacy_price_per_square_witness :
    ∃ r ∈ [legacyRow0], addPricePerSquare (addFeesToRent legacyRow0) = addPricePerSquare (addFeesToRent r)
      ∧ (∀ f, r.additional_fees = some f →
          (addPricePerSquare (addFeesToRent legacyRow0)).rent_price
            = r.rent_price.map (fun p => p + f))
      ∧ (r.additional_fees = none →
          (addPricePerSquare (addFeesToRent legacyRow0)).rent_price = r.rent_price)
      ∧ (addPricePerSquare (addFeesToRent legacyRow0)).price_per_square
          = cellDiv (addPricePerSquare (addFeesToRent legacyRow0)).rent_price
              (addPricePerSquare (addFeesToRent legacyRow0)).area :=
  legacy_price_per_square [legacyRow0] (addPricePerSquare (addFeesToRent legacyRow0))
    (List.mem_singleton.mpr rfl)

/-- A legacy row flagged as having approximate coordinates. -/
def legacyRow1 : LegacyRow :=
  { approximate_coordinates := some true
    rent_price := some 1000
    additional_fees := none
    area := some 25
    price_per_square := none
    latitude := 52
    longitude := 21 }

/-- C10: every row passed into `average_price_within_radius` has
`approximate_coordinates` not equal to `True`; rows whose flag is `True` are
removed, and rows where it is `False` or missing are retained (after the
price transforms). -/
theorem legacy_no_approximate (rows : List LegacyRow) :
    (∀ q ∈ legacyForAveraging rows, q.approximate_coordinates ≠ some true)
    ∧ (∀ r ∈ rows, r.approximate_coordinates ≠ some true →
        addPricePerSquare (addFeesToRent r) ∈ legacyForAveraging rows) := by
  constructor
  · intro q hq
    rw [legacyForAveraging] at hq
    obtain ⟨r1, h1, he1⟩ := List.mem_map.mp hq
    obtain ⟨r, hr, he2⟩ := List.mem_map.mp h1
    have hflag := (List.mem_filter.mp hr).2
    simp at hflag
    subst he2
    subst he1
    simpa [addPricePerSquare, addFeesToRent] using hflag
  · intro r hr hflag
    rw [legacyForAveraging]
    apply List.mem_map_of_mem
    apply List.mem_map_of_mem
    rw [dropApproximate, List.mem_filter]
    exact ⟨hr, by simpa using hflag⟩

/-- Concrete check of C10: the flagged row is removed, the unflagged row is
retained. -/
theorem legacy_no_approximate_witness :
    (∀ q ∈ legacyForAveraging [legacyRow0, legacyRow1],
      q.approximate_coordinates ≠ some true)
    ∧ addPricePerSquare (addFeesToRent legacyRow0)
        ∈ legacyForAveraging [legacyRow0, legacyRow1] :=
  ⟨(legacy_no_approximate [legacyRow0, legacyRow1]).1,
    (legacy_no_approximate [legacyRow0, legacyRow1]).2 legacyRow0 (by decide) (by decide)⟩

/-! ### Stops, subway stations and nearest-neighbor distance
(`data_preparation_notebook.ipynb`, distance cells) -/

/-- A public-transport stop from `ztm_stops.csv`. -/
structure Stop where
  stop_name : Str
  stop_lat : ℚ
  stop_lon : ℚ
deriving DecidableEq

/-- A listing position from the main table. -/
structure Listing where
  latitude : ℚ
  longitude : ℚ
deriving DecidableEq

/-- The stop-name predicate of the `subway_stations` cell: starts with
`Metro`, or contains one of the listed fragments, or equals one of the two
exact names. -/
def isSubwayName (name : Str) : Bool :=
  ("Metro".toList).isPrefixOf name ||
  containsSub ("Wilsona".toList) name ||
  containsSub ("Daszyńskiego".toList) name ||
  containsSub ("Nowy Świat".toList) name ||
  containsSub ("ONZ".toList) name ||
  containsSub ("Wileński".toList) name ||
  name == ("Dw. Gdański".toList) ||
  name == ("Centrum".toList)

/-- `subway_stations`: the subset of `ztm_stops` whose `stop_name` satisfies
the name predicate. -/
def subway_stations (ztm : List Stop) : List Stop :=
  ztm.filter (fun s => isSubwayName s.stop_name)

/-- Modelled from the spec: `distance_to_nearest_stop` (defined in the
repository's `modules/datakit`, whose source is not part of the repository
snapshot) computes the spatial nearest-neighbor distance from a listing to a
stop set: the minimum over the stops of the listing-to-stop distance `d`
(`none` on an empty stop set). -/
def distance_to_nearest_stop (d : Listing → Stop → ℚ) (l : Listing)
    (stops : List Stop) : Option ℚ :=
  (stops.map (d l)).min?

lemma qmin?_eq_some_iff (xs : List ℚ) (a : ℚ) :
    xs.min? = some a ↔ a ∈ xs ∧ ∀ b ∈ xs, a ≤ b := by
  haveI : Std.Antisymm (fun (x y : ℚ) => x ≤ y) := ⟨@fun x y h h2 => le_antisymm h h2⟩
  exact List.min?_eq_some_iff (fun x => le_refl x) (fun x y => min_choice x y)
    (fun x y z => le_min_iff)

/-- C2: for any distance function, any listing and any stop table, the
nearest-neighbor distance to the subway subset is at least the
nearest-neighbor distance to the full stop set. -/
theorem distance_to_subway_ge_distance_to_stop (d : Listing → Stop → ℚ)
    (l : Listing) (ztm : List Stop) (q : ℚ)
    (h : distance_to_nearest_stop d l (subway_stations ztm) = some q) :
    ∃ q2, distance_to_nearest_stop d l ztm = some q2 ∧ q2 ≤ q := by
  rw [distance_to_nearest_stop, qmin?_eq_some_iff] at h
  obtain ⟨hmem, _⟩ := h
  obtain ⟨s, hs, hds⟩ := List.mem_map.mp hmem
  have hsz : s ∈ ztm := (List.mem_filter.mp hs).1
  have hqfull : q ∈ ztm.map (d l) := by
    rw [← hds]
    exact List.mem_map_of_mem _ hsz
  cases hfull : (ztm.map (d l)).min? with
  | none =>
    rw [List.min?_eq_none_iff] at hfull
    rw [hfull] at hqfull
    simp at hqfull
  | some q2 =>
    obtain ⟨_, hlb⟩ := (qmin?_eq_some_iff _ _).mp hfull
    exact ⟨q2, by rw [distance_to_nearest_stop, hfull], hlb q hqfull⟩

/-- A sample subway stop. -/
def stop0 : Stop := { stop_name := "Centrum".toList, stop_lat := 52, stop_lon := 21 }

/-- A sample listing. -/
def listing0 : Listing := { latitude := 52, longitude := 21 }

/-- Concrete check of C2 with the zero distance function. -/
theorem distance_to_subway_ge_distance_to_stop_witness :
    ∃ q2, distance_to_nearest_stop (fun _ _ => (0 : ℚ)) listing0 [stop0] = some q2
      ∧ q2 ≤ 0 :=
  distance_to_subway_ge_distance_to_stop (fun _ _ => (0 : ℚ)) listing0 [stop0] 0
    (by rfl)

/-! ### Column-level dataframe model: hidden-fees update and final column drop
(`data_preparation_notebook.ipynb`) -/

/-- A dataframe cell: numeric, textual, or missing (`NaN`). -/
inductive Cell
  | num (q : ℚ)
  | str (s : String)
  | missing
deriving DecidableEq

/-- A dataframe row: an association list from column names to cells. -/
abbrev Row := List (String × Cell)

/-- Overwrite every occurrence of column `k` of a row with value `v`. -/
def setCol (row : Row) (k : String) (v : Cell) : Row :=
  row.map (fun kv => if kv.1 = k then (k, v) else kv)

/-- `fees_map`: the LLM output indexed by `link`,
`df_fees.set_index('link')['real_additional_fees']`. -/
def feesLookup (fees : List (String × ℚ)) (link : String) : Option ℚ :=
  fees.lookup link

/-- The hidden-fees update
`df.loc[df['link'].isin(fees_map.index), 'additional_fees'] = df['link'].map(fees_map)`
acting on one row: when the row's `link` is in the fees index, overwrite
`additional_fees` with the mapped fee; otherwise leave the row unchanged. -/
def applyFees (fees : List (String × ℚ)) (row : Row) : Row :=
  match row.lookup "link" with
  | some (Cell.str l) =>
    match feesLookup fees l with
    | some fee => setCol row "additional_fees" (Cell.num fee)
    | none => row
  | _ => row

/-- The hidden-fees update over the whole main table. -/
def addHiddenFees (fees : List (String × ℚ)) (df : List Row) : List Row :=
  df.map (applyFees fees)

lemma lookup_setCol_ne (row : Row) (k k2 : String) (v : Cell) (h : k2 ≠ k) :
    (setCol row k v).lookup k2 = row.lookup k2 := by
  induction row with
  | nil => rfl
  | cons kv t ih =>
    by_cases hk : kv.1 = k
    · rw [setCol, List.map_cons, if_pos hk]
      rw [List.lookup, List.lookup]
      have hne : (k2 == k) = false := by
        rw [beq_eq_false_iff_ne]
        exact h
      have hne2 : (k2 == kv.1) = false := by
        rw [beq_eq_false_iff_ne, hk]
        exact h
      rw [hne, hne2]
      exact ih
    · rw [setCol, List.map_cons, if_neg hk]
      rw [List.lookup, List.lookup]
      cases hbe : k2 == kv.1 with
      | true => rfl
      | false => exact ih

lemma lookup_setCol_self (row : Row) (k : String) (v : Cell)
    (h : (row.lookup k).isSome = true) :
    (setCol row k v).lookup k = some v := by
  induction row with
  | nil => simp [List.lookup] at h
  | cons kv t ih =>
    by_cases hk : kv.1 = k
    · rw [setCol, List.map_cons, if_pos hk]
      rw [List.lookup]
      simp
    · rw [setCol, List.map_cons, if_neg hk]
      rw [List.lookup]
      have hne : (k == kv.1) = false := by
        rw [beq_eq_false_iff_ne]
        exact fun he => hk he.symm
      rw [hne]
      apply ih
      rw [List.lookup, hne] at h
      exact h

/-- C4: the hidden-fee enrichment only rewrites `additional_fees`, and only
on rows whose `link` has an entry in the LLM output table: every other
column of every row keeps its value, and a row whose link is absent from the
fees table is completely unchanged. -/
theorem applyFees_frame (fees : List (String × ℚ)) (row : Row) :
    (∀ k, k ≠ "additional_fees" → (applyFees fees row).lookup k = row.lookup k)
    ∧ (∀ l fee, row.lookup "link" = some (Cell.str l) →
        feesLookup fees l = some fee →
        (row.lookup "additional_fees").isSome = true →
        (applyFees fees row).lookup "additional_fees" = some (Cell.num fee))
    ∧ (∀ l, row.lookup "link" = some (Cell.str l) → feesLookup fees l = none →
        applyFees fees row = row) := by
  refine ⟨?_, ?_, ?_⟩
  · intro k hk
    cases hlink : row.lookup "link" with
    | none => simp only [applyFees, hlink]
    | some c =>
      cases c with
      | num q => simp only [applyFees, hlink]
      | missing => simp only [applyFees, hlink]
      | str l =>
        cases hfee : feesLookup fees l with
        | none => simp only [applyFees, hlink, hfee]
        | some fee =>
          simp only [applyFees, hlink, hfee]
          exact lookup_setCol_ne row "additional_fees" k (Cell.num fee) hk
  · intro l fee hlink hfee hcol
    simp only [applyFees, hlink, hfee]
    exact lookup_setCol_self row "additional_fees" (Cell.num fee) hcol
  · intro l hlink hfee
    simp only [applyFees, hlink, hfee]

/-- A sample main-table row. -/
def row0 : Row :=
  [("link", Cell.str "https://a"), ("additional_fees", Cell.num 10),
   ("rent", Cell.num 3000), ("district", Cell.str "Wola")]

/-- A sample LLM-output fees table. -/
def fees0 : List (String × ℚ) := [("https://a", 450)]

/-- Concrete check of C4: the matched row gets the LLM fee, other columns
keep their values. -/
theorem applyFees_frame_witness :
    (applyFees fees0 row0).lookup "additional_fees" = some (Cell.num 450)
    ∧ (applyFees fees0 row0).lookup "rent" = row0.lookup "rent" :=
  ⟨(applyFees_frame fees0 row0).2.1 "https://a" 450 (by rfl) (by rfl) (by rfl),
    (applyFees_frame fees0 row0).1 "rent" (by decide)⟩

/-- `columns_to_drop` of the save cell. -/
def columns_to_drop : List String :=
  ["title", "adv_description", "link", "last_update", "location"]

/-- `df.drop(columns=columns_to_drop)` acting on a row. -/
def dropColumns (row : Row) : Row :=
  row.filter (fun kv => !(columns_to_drop.contains kv.1))

/-- The saved modeling table: every row with the five columns dropped. -/
def modelingTable (df : List Row) : List Row :=
  df.map dropColumns

lemma contains_eq_decide_mem (l : List String) (a : String) :
    l.contains a = decide (a ∈ l) := by
  induction l with
  | nil => rfl
  | cons x t ih =>
    rw [List.contains_cons, ih]
    by_cases hx : a = x
    · subst hx
      simp
    · have hbe : (a == x) = false := by
        rw [beq_eq_false_iff_ne]
        exact hx
      rw [hbe]
      simp [hx]

lemma dropColumns_cons_of_mem (a : String) (b : Cell) (t : Row)
    (hk : a ∈ columns_to_drop) :
    dropColumns ((a, b) :: t) = dropColumns t := by
  simp [dropColumns, List.filter_cons, contains_eq_decide_mem, hk]

lemma dropColumns_cons_of_not_mem (a : String) (b : Cell) (t : Row)
    (hk : a ∉ columns_to_drop) :
    dropColumns ((a, b) :: t) = (a, b) :: dropColumns t := by
  simp [dropColumns, List.filter_cons, contains_eq_decide_mem, hk]

lemma lookup_dropColumns_mem (row : Row) (c : String) (hc : c ∈ columns_to_drop) :
    (dropColumns row).lookup c = none := by
  induction row with
  | nil => rfl
  | cons kv t ih =>
    obtain ⟨a, b⟩ := kv
    by_cases hk : a ∈ columns_to_drop
    · rw [dropColumns_cons_of_mem a b t hk]
      exact ih
    · rw [dropColumns_cons_of_not_mem a b t hk]
      rw [List.lookup]
      have hne : (c == a) = false := by
        rw [beq_eq_false_iff_ne]
        intro he
        rw [he] at hc
        exact hk hc
      rw [hne]
      exact ih

lemma lookup_dropColumns_not_mem (row : Row) (c : String)
    (hc : c ∉ columns_to_drop) :
    (dropColumns row).lookup c = row.lookup c := by
  induction row with
  | nil => rfl
  | cons kv t ih =>
    obtain ⟨a, b⟩ := kv
    by_cases hk : a ∈ columns_to_drop
    · rw [dropColumns_cons_of_mem a b t hk]
      rw [List.lookup]
      have hne : (c == a) = false := by
        rw [beq_eq_false_iff_ne]
        intro he
        rw [← he] at hk
        exact hc hk
      rw [hne]
      exact ih
    · rw [dropColumns_cons_of_not_mem a b t hk]
      rw [List.lookup, List.lookup]
      cases c == a with
      | true => rfl
      | false => exact ih

/-- C5: the saved modeling table has none of the five dropped columns, and
every other column of every row keeps its value. -/
theorem modelingTable_drop (df : List Row) :
    (∀ row ∈ modelingTable df, ∀ c ∈ columns_to_drop, row.lookup c = none)
    ∧ (∀ r ∈ df, dropColumns r ∈ modelingTable df
        ∧ ∀ c, c ∉ columns_to_drop → (dropColumns r).lookup c = r.lookup c) := by
  constructor
  · intro row hrow c hc
    obtain ⟨r, _, he⟩ := List.mem_map.mp hrow
    rw [← he]
    exact lookup_dropColumns_mem r c hc
  · intro r hr
    exact ⟨List.mem_map_of_mem _ hr, fun c hc => lookup_dropColumns_not_mem r c hc⟩

/-- Concrete check of C5 on a sample row. -/
theorem modelingTable_drop_witness :
    (dropColumns row0).lookup "link" = none
    ∧ (dropColumns row0).lookup "rent" = row0.lookup "rent" := by
  have h := modelingTable_drop [row0]
  refine ⟨h.1 (dropColumns row0) (List.mem_map_of_mem _ (by simp)) "link" (by decide), ?_⟩
  exact (h.2 row0 (by simp)).2 "rent" (by decide)

/-! ### Pipeline ordering (`data_preparation_notebook.ipynb` cell sequence) -/

/-- The named steps of the preparation notebook. -/
inductive Step
  | deduplicate
  | transform
  | correctLocations
  | hiddenFees
  | distanceColumns
  | averagePrice
  | apartmentClasses
  | saveModeling
deriving DecidableEq

/-- The notebook's cell order: read, deduplicate, transform, correct
locations, add hidden fees, add distance columns, add the radius average,
add apartment classes, drop and save. -/
def pipelineSteps : List Step :=
  [Step.deduplicate, Step.transform, Step.correctLocations, Step.hiddenFees,
   Step.distanceColumns, Step.averagePrice, Step.apartmentClasses,
   Step.saveModeling]

/-- The enrichment steps in the sense of the spec. -/
def enrichmentSteps : List Step :=
  [Step.correctLocations, Step.hiddenFees, Step.distanceColumns,
   Step.averagePrice, Step.apartmentClasses]

/-- Implementations of the individual steps over an abstract table type
(their bodies live in `modules/datakit` or in the notebook cells). -/
structure StepImpl (α : Type) where
  deduplicate : α → α
  transform : α → α
  correctLocations : α → α
  hiddenFees : α → α
  distanceColumns : α → α
  averagePrice : α → α
  apartmentClasses : α → α
  saveModeling : α → α

/-- Apply one named step. -/
def applyStep {α : Type} (fns : StepImpl α) : Step → α → α
  | Step.deduplicate => fns.deduplicate
  | Step.transform => fns.transform
  | Step.correctLocations => fns.correctLocations
  | Step.hiddenFees => fns.hiddenFees
  | Step.distanceColumns => fns.distanceColumns
  | Step.averagePrice => fns.averagePrice
  | Step.apartmentClasses => fns.apartmentClasses
  | Step.saveModeling => fns.saveModeling

/-- The preparation notebook's computation, cell by cell. -/
def run_pipeline {α : Type} (fns : StepImpl α) (t : α) : α :=
  fns.saveModeling (fns.apartmentClasses (fns.averagePrice (fns.distanceColumns
    (fns.hiddenFees (fns.correctLocations (fns.transform (fns.deduplicate t)))))))

/-- C6: the notebook applies deduplication first, then the transform, then
the enrichment steps, and produces the saved modeling table last;
deduplication precedes every enrichment step. -/
theorem run_pipeline_order {α : Type} (fns : StepImpl α) (t : α) :
    run_pipeline fns t
      = pipelineSteps.foldl (fun acc s => applyStep fns s acc) t
    ∧ pipelineSteps.head? = some Step.deduplicate
    ∧ pipelineSteps.getLast? = some Step.saveModeling
    ∧ pipelineSteps.indexOf Step.transform = 1
    ∧ (enrichmentSteps.all (fun s =>
        decide (pipelineSteps.indexOf Step.deduplicate < pipelineSteps.indexOf s
          ∧ pipelineSteps.indexOf Step.transform < pipelineSteps.indexOf s
          ∧ pipelineSteps.indexOf s < pipelineSteps.indexOf Step.saveModeling)))
        = true := by
  refine ⟨rfl, rfl, rfl, by decide, by decide⟩

/-! ### Misleading-location coordinate extraction
(`data_preparation_notebook.ipynb`, `re.search('/@(.*),', x)` cell) -/

/-- The group of `'/@(.*),'` taken right after an occurrence of `/@`: the dot
does not match a newline, so `(.*)` ranges over the newline-free segment
starting here, and greediness makes the final `','` the last comma of that
segment; group 1 is everything before that comma, `none` when the segment has
no comma. -/
def group1After (rest : Str) : Option Str :=
  if ',' ∈ rest.takeWhile (fun c => c ≠ '\n') then
    some ((((rest.takeWhile (fun c => c ≠ '\n')).reverse.dropWhile
      (fun c => c ≠ ',')).tail).reverse)
  else
    none

/-- `re.search('/@(.*),', s)` followed by `.group(1)`: scan left to right for
the first position where `/@` is followed, in the same line, by a comma;
return group 1 of the match there, and `none` when no position matches
(`.group` then raises on `None`). -/
def re_search_group1 : Str → Option Str
  | [] => none
  | [_] => none
  | c :: d :: rest =>
    if c = '/' ∧ d = '@' then
      match group1After rest with
      | some g => some g
      | none => re_search_group1 (d :: rest)
    else re_search_group1 (d :: rest)

/-- `real_coordinates`: group 1 split on commas,
`re.search('/@(.*),', x).group(1).split(',')`. -/
def real_coordinates (s : Str) : Option (List Str) :=
  (re_search_group1 s).map (splitSep ',')

/-- The string passed to `float(...)` for the latitude, `sublist[0]`. -/
def latitude_token (s : Str) : Option Str :=
  (real_coordinates s).bind (fun toks => toks[0]?)

/-- The string passed to `float(...)` for the longitude, `sublist[1]`;
`none` when the indexing raises `IndexError`. -/
def longitude_token (s : Str) : Option Str :=
  (real_coordinates s).bind (fun toks => toks[1]?)

/-- `s` contains `/@` followed later, in the same line, by a comma. -/
def HasAtComma (s : Str) : Prop :=
  ∃ pre mid suf, s = pre ++ '/' :: '@' :: (mid ++ ',' :: suf) ∧ '\n' ∉ mid

lemma dropWhile_ne_nil_of_mem (p : Char → Bool) (l : Str) (x : Char)
    (hx : x ∈ l) (hpx : p x = false) : l.dropWhile p ≠ [] := by
  intro hnil
  have hall : l.takeWhile p = l := by
    have h := List.takeWhile_append_dropWhile (p := p) (l := l)
    rw [hnil, List.append_nil] at h
    exact h
  have : p x = true := List.mem_takeWhile_imp (hall ▸ hx)
  simp [hpx] at this

lemma dropWhile_comma_decomp (u : Str) (h : ',' ∈ u) :
    ∃ tl, u = u.takeWhile (fun c => c ≠ ',') ++ ',' :: tl
      ∧ u.dropWhile (fun c => c ≠ ',') = ',' :: tl := by
  have hne : u.dropWhile (fun c => c ≠ ',') ≠ [] :=
    dropWhile_ne_nil_of_mem _ u ',' h (by simp)
  cases hdw : u.dropWhile (fun c => c ≠ ',') with
  | nil => exact absurd hdw hne
  | cons hd tl =>
    have hhd : hd = ',' := by
      have hh := head?_dropWhile (fun c => c ≠ ',') u hd (by rw [hdw]; rfl)
      simpa using hh
    subst hhd
    refine ⟨tl, ?_, rfl⟩
    conv_lhs => rw [← List.takeWhile_append_dropWhile (p := fun c => c ≠ ',') (l := u)]
    rw [hdw]

lemma takeWhile_append_all (p : Char → Bool) (mid x : Str)
    (h : ∀ c ∈ mid, p c = true) :
    (mid ++ x).takeWhile p = mid ++ x.takeWhile p := by
  induction mid with
  | nil => simp
  | cons c t ih =>
    have hc := h c (by simp)
    rw [List.cons_append, List.takeWhile_cons_of_pos hc,
      ih (fun y hy => h y (by simp [hy]))]
    rfl

lemma takeWhile_eq_self_of_all (p : Char → Bool) (u : Str)
    (h : ∀ c ∈ u, p c = true) : u.takeWhile p = u := by
  have := takeWhile_append_all p u [] h
  simpa using this

lemma comma_segment_iff (rest : Str) :
    (∃ mid suf, rest = mid ++ ',' :: suf ∧ '\n' ∉ mid) ↔
      ',' ∈ rest.takeWhile (fun c => c ≠ '\n') := by
  constructor
  · rintro ⟨mid, suf, hsplit, hmid⟩
    rw [hsplit, takeWhile_append_all _ _ _
      (fun c hc => by
        rw [decide_eq_true_eq]
        intro he
        rw [he] at hc
        exact hmid hc)]
    rw [List.takeWhile_cons_of_pos (by simp)]
    simp
  · intro hmem
    obtain ⟨tl, htw, _⟩ := dropWhile_comma_decomp
      (rest.takeWhile (fun c => c ≠ '\n')) hmem
    refine ⟨(rest.takeWhile (fun c => c ≠ '\n')).takeWhile (fun c => c ≠ ','),
      tl ++ rest.dropWhile (fun c => c ≠ '\n'), ?_, ?_⟩
    · conv_lhs => rw [← List.takeWhile_append_dropWhile
        (p := fun c => c ≠ '\n') (l := rest)]
      conv_lhs => rw [htw]
      simp
    · intro hmem2
      have h1 : ('\n' : Char) ∈ rest.takeWhile (fun c => c ≠ '\n') :=
        (List.takeWhile_sublist _).subset hmem2
      have := List.mem_takeWhile_imp h1
      simp at this

lemma group1After_some (rest g : Str) (h : group1After rest = some g) :
    ∃ suf, rest = g ++ ',' :: suf ∧ '\n' ∉ g := by
  rw [group1After] at h
  by_cases hc : ',' ∈ rest.takeWhile (fun c => c ≠ '\n')
  · rw [if_pos hc] at h
    have hg : g = (((rest.takeWhile (fun c => c ≠ '\n')).reverse.dropWhile
        (fun c => c ≠ ',')).tail).reverse := by
      injection h with h2
      rw [h2]
    have hcr : ',' ∈ (rest.takeWhile (fun c => c ≠ '\n')).reverse := by
      rw [List.mem_reverse]
      exact hc
    obtain ⟨tl, htw, hdw⟩ := dropWhile_comma_decomp
      ((rest.takeWhile (fun c => c ≠ '\n')).reverse) hcr
    have hgtl : g = tl.reverse := by
      rw [hg, hdw]
      rfl
    have hseg : rest.takeWhile (fun c => c ≠ '\n')
        = g ++ ',' :: ((rest.takeWhile (fun c => c ≠ '\n')).reverse.takeWhile
            (fun c => c ≠ ',')).reverse := by
      have h2 := congrArg List.reverse htw
      rw [List.reverse_reverse] at h2
      conv_lhs => rw [h2]
      rw [List.reverse_append]
      simp [hgtl]
    refine ⟨((rest.takeWhile (fun c => c ≠ '\n')).reverse.takeWhile
        (fun c => c ≠ ',')).reverse ++ rest.dropWhile (fun c => c ≠ '\n'),
      ?_, ?_⟩
    · conv_lhs => rw [← List.takeWhile_append_dropWhile
        (p := fun c => c ≠ '\n') (l := rest)]
      conv_lhs => rw [hseg]
      simp
    · intro hmem
      have h1 : ('\n' : Char) ∈ rest.takeWhile (fun c => c ≠ '\n') := by
        rw [hseg]
        exact List.mem_append_left _ hmem
      have := List.mem_takeWhile_imp h1
      simp at this
  · rw [if_neg hc] at h
    cases h

lemma group1After_none (rest : Str) (h : group1After rest = none) :
    ',' ∉ rest.takeWhile (fun c => c ≠ '\n') := by
  rw [group1After] at h
  by_cases hc : ',' ∈ rest.takeWhile (fun c => c ≠ '\n')
  · rw [if_pos hc] at h
    cases h
  · exact hc

lemma hasAtComma_nil : ¬ HasAtComma [] := by
  rintro ⟨pre, mid, suf, hsplit, _⟩
  have := congrArg List.length hsplit
  simp at this
  omega

lemma hasAtComma_single (c : Char) : ¬ HasAtComma [c] := by
  rintro ⟨pre, mid, suf, hsplit, _⟩
  have := congrArg List.length hsplit
  simp at this
  omega

lemma hasAtComma_cons_iff (c d : Char) (rest : Str) :
    HasAtComma (c :: d :: rest) ↔
      ((c = '/' ∧ d = '@' ∧ ∃ mid suf, rest = mid ++ ',' :: suf ∧ '\n' ∉ mid)
        ∨ HasAtComma (d :: rest)) := by
  constructor
  · rintro ⟨pre, mid, suf, hsplit, hmid⟩
    cases pre with
    | nil =>
      simp only [List.nil_append] at hsplit
      injection hsplit with h1 h2
      injection h2 with h3 h4
      exact Or.inl ⟨h1, h3, mid, suf, h4, hmid⟩
    | cons p pre2 =>
      simp only [List.cons_append] at hsplit
      injection hsplit with h1 h2
      exact Or.inr ⟨pre2, mid, suf, h2, hmid⟩
  · rintro (⟨h1, h3, mid, suf, h4, hmid⟩ | ⟨pre, mid, suf, hsplit, hmid⟩)
    · subst h1
      subst h3
      exact ⟨[], mid, suf, by rw [h4]; rfl, hmid⟩
    · exact ⟨c :: pre, mid, suf, by rw [hsplit]; rfl, hmid⟩

lemma re_search_group1_isSome_iff : ∀ (s : Str),
    (re_search_group1 s).isSome = true ↔ HasAtComma s := by
  intro s
  induction s with
  | nil =>
    rw [re_search_group1]
    simp [hasAtComma_nil]
  | cons c rest ih =>
    cases rest with
    | nil =>
      rw [re_search_group1]
      simp [hasAtComma_single]
    | cons d rest2 =>
      rw [hasAtComma_cons_iff]
      by_cases hcd : c = '/' ∧ d = '@'
      · rw [re_search_group1, if_pos hcd]
        cases hg : group1After rest2 with
        | some g =>
          simp only [Option.isSome_some, true_iff]
          obtain ⟨suf, hsplit, hnog⟩ := group1After_some rest2 g hg
          exact Or.inl ⟨hcd.1, hcd.2, g, suf, hsplit, hnog⟩
        | none =>
          simp only []
          rw [ih]
          constructor
          · exact Or.inr
          · rintro (⟨_, _, mid, suf, hsplit, hmid⟩ | h)
            · exfalso
              have := group1After_none rest2 hg
              rw [← comma_segment_iff] at this
              exact this ⟨mid, suf, hsplit, hmid⟩
            · exact h
      · rw [re_search_group1, if_neg hcd]
        rw [ih]
        constructor
        · exact Or.inr
        · rintro (⟨h1, h3, _⟩ | h)
          · exact absurd ⟨h1, h3⟩ hcd
          · exact h

lemma re_search_group1_decomp : ∀ (s g : Str), re_search_group1 s = some g →
    ∃ pre suf, s = pre ++ '/' :: '@' :: (g ++ ',' :: suf) ∧ '\n' ∉ g := by
  intro s
  induction s with
  | nil =>
    intro g h
    rw [re_search_group1] at h
    cases h
  | cons c rest ih =>
    cases rest with
    | nil =>
      intro g h
      rw [re_search_group1] at h
      cases h
    | cons d rest2 =>
      intro g h
      by_cases hcd : c = '/' ∧ d = '@'
      · rw [re_search_group1, if_pos hcd] at h
        cases hg : group1After rest2 with
        | some g2 =>
          rw [hg] at h
          injection h with h2
          obtain ⟨suf, hsplit, hnog⟩ := group1After_some rest2 g2 hg
          refine ⟨[], suf, ?_, ?_⟩
          · rw [hsplit, hcd.1, hcd.2, ← h2]
            rfl
          · rw [← h2]
            exact hnog
        | none =>
          rw [hg] at h
          obtain ⟨pre, suf, hsplit, hnog⟩ := ih g h
          exact ⟨c :: pre, suf, by rw [hsplit]; rfl, hnog⟩
      · rw [re_search_group1, if_neg hcd] at h
        obtain ⟨pre, suf, hsplit, hnog⟩ := ih g h
        exact ⟨c :: pre, suf, by rw [hsplit]; rfl, hnog⟩

lemma splitSep_cons_decomp (sep : Char) (u : Str) (h : sep ∈ u) :
    splitSep sep u = u.takeWhile (fun c => c ≠ sep)
      :: splitSep sep ((u.dropWhile (fun c => c ≠ sep)).tail) := by
  induction u with
  | nil => simp at h
  | cons x t ih =>
    by_cases hx : x = sep
    · subst hx
      rw [splitSep, if_pos rfl]
      rw [List.takeWhile_cons_of_neg (by simp)]
      rw [List.dropWhile_cons_of_neg (by simp)]
      rfl
    · have hmem : sep ∈ t := by
        rcases List.mem_cons.mp h with h2 | h2
        · exact absurd h2.symm hx
        · exact h2
      rw [splitSep, if_neg (fun he => hx he)]
      rw [ih hmem]
      rw [List.takeWhile_cons_of_pos (by simp [hx])]
      rw [List.dropWhile_cons_of_pos (by simp [hx])]

lemma splitSep_getElem0 (sep : Char) (u : Str) :
    (splitSep sep u)[0]? = some (u.takeWhile (fun c => c ≠ sep)) := by
  by_cases h : sep ∈ u
  · rw [splitSep_cons_decomp sep u h]
    simp
  · rw [splitSep_eq_single sep u h]
    rw [takeWhile_eq_self_of_all _ _ (fun c hc => by
      rw [decide_eq_true_eq]
      intro he
      rw [he] at hc
      exact h hc)]
    simp

lemma splitSep_getElem1_of_mem (sep : Char) (u : Str) (h : sep ∈ u) :
    (splitSep sep u)[1]?
      = some (((u.dropWhile (fun c => c ≠ sep)).tail).takeWhile (fun c => c ≠ sep)) := by
  rw [splitSep_cons_decomp sep u h]
  have h0 := splitSep_getElem0 sep ((u.dropWhile (fun c => c ≠ sep)).tail)
  simpa using h0

lemma splitSep_getElem1_of_not_mem (sep : Char) (u : Str) (h : sep ∉ u) :
    (splitSep sep u)[1]? = none := by
  rw [splitSep_eq_single sep u h]
  simp

/-- C9 (amended): the search-and-group extraction succeeds exactly when the
string contains `/@` followed, in the same line, by a comma; group 1 then
sits directly after a `/@` occurrence with a comma right after it; the
latitude string is group 1 up to its first comma, i.e. the text strictly
between the matched `/@` and the next comma; the longitude string exists iff
group 1 itself contains a comma (at least two commas after the matched `/@`)
and is then the following comma-separated token; when the pattern is absent
both extractions fail. -/
theorem re_search_group1_spec (s : Str) :
    ((re_search_group1 s).isSome = true ↔ HasAtComma s)
    ∧ (∀ g, re_search_group1 s = some g →
        (∃ pre suf, s = pre ++ '/' :: '@' :: (g ++ ',' :: suf) ∧ '\n' ∉ g)
        ∧ latitude_token s = some (g.takeWhile (fun c => c ≠ ','))
        ∧ ((longitude_token s).isSome = true ↔ ',' ∈ g)
        ∧ (',' ∈ g → longitude_token s
            = some (((g.dropWhile (fun c => c ≠ ',')).tail).takeWhile
                (fun c => c ≠ ','))))
    ∧ (re_search_group1 s = none →
        latitude_token s = none ∧ longitude_token s = none) := by
  refine ⟨re_search_group1_isSome_iff s, ?_, ?_⟩
  · intro g hg
    refine ⟨re_search_group1_decomp s g hg, ?_, ?_, ?_⟩
    · rw [latitude_token, real_coordinates, hg]
      exact splitSep_getElem0 ',' g
    · rw [longitude_token, real_coordinates, hg]
      show ((splitSep ',' g)[1]?).isSome = true ↔ ',' ∈ g
      by_cases hmem : ',' ∈ g
      · rw [splitSep_getElem1_of_mem ',' g hmem]
        simp [hmem]
      · rw [splitSep_getElem1_of_not_mem ',' g hmem]
        simp [hmem]
    · intro hmem
      rw [longitude_token, real_coordinates, hg]
      exact splitSep_getElem1_of_mem ',' g hmem
  · intro hg
    rw [latitude_token, longitude_token, real_coordinates, hg]
    exact ⟨rfl, rfl⟩

/-- C9 counterexample: `'/@1,'` contains `/@` followed by a comma, the claim
therefore asserts a successful extraction of both coordinates, yet the
longitude indexing `sublist[1]` fails (`group(1)` is `'1'`, which splits into
a single token). -/
theorem real_coordinates_counterexample :
    HasAtComma ("/@1,".toList)
    ∧ latitude_token ("/@1,".toList) = some ['1']
    ∧ longitude_token ("/@1,".toList) = none :=
  ⟨⟨[], ['1'], [], rfl, by decide⟩, by decide, by decide⟩

/-- Concrete check of C9 (amended) on a well-formed Google-Maps-style link. -/
theorem re_search_group1_spec_witness :
    latitude_token ("maps/@52.2,21.0,17z".toList) = some ("52.2".toList)
    ∧ longitude_token ("maps/@52.2,21.0,17z".toList) = some ("21.0".toList) := by
  have h := (re_search_group1_spec ("maps/@52.2,21.0,17z".toList)).2.1
    ("52.2,21.0".toList) (by decide)
  refine ⟨?_, ?_⟩
  · rw [h.2.1]
    decide
  · rw [h.2.2.2 (by decide)]
    decide

end MA
